import Mathlib

/-!
# Verification of the canedge_browser log-file listing core

Shallow embedding of `canedge_browser/listing.py` and
`canedge_browser/support/FuncBackedList.py`.

Modelling conventions:
* Timestamps (`datetime` values) are modelled as `Int` (a totally ordered,
  unbounded domain); the Unix epoch `datetime.utcfromtimestamp(0)` is `0`.
* The fsspec filesystem collaborator is a record of functions: `ls` returns
  `none` to model a `FileNotFoundError`, and `extract` models opening a file
  and applying the injected `extract_date` decoder to the handle.
* Functions that can propagate an uncaught `FileNotFoundError` return
  `Option`, with `none` for the escaping exception.
* Python's `bisect.bisect_left`/`bisect_right` are embedded as the very
  binary-search loops they execute, written with an explicit fuel counter so
  that the definitions stay executable by the kernel; the initial fuel
  `hi - lo` always suffices.
-/

namespace CanedgeBrowser

/-- One entry of an `fs.ls(path, detail=True)` listing: the full `name` of the
object and its reported `type` (`"file"` or `"directory"`). -/
structure FSEntry where
  name : String
  type : String
deriving Repr, DecidableEq

/-- The fsspec filesystem collaborator together with the injected
`extract_date` decoder.  `ls p = none` models `fs.ls(p)` raising
`FileNotFoundError`; `extract p` models `extract_date(fs.open(p))`. -/
structure FS where
  ls : String → Option (List FSEntry)
  isdir : String → Bool
  isfile : String → Bool
  extract : String → Int

/-- `entry.rsplit(".", 1)` on a list of characters: split at the rightmost
dot, `none` when no dot occurs (Python raises `ValueError` there). -/
def rsplitDotAux : List Char → Option (List Char × List Char)
  | [] => none
  | c :: cs =>
    match rsplitDotAux cs with
    | some (b, e) => some (c :: b, e)
    | none => if c = '.' then some ([], cs) else none

/-- `entry.rsplit(".", 1)` returning `(base, ext)`, or `none` when the entry
contains no dot. -/
def rsplitDot (s : String) : Option (String × String) :=
  (rsplitDotAux s.data).map (fun p => (String.mk p.1, String.mk p.2))

/-- Python's lexicographic comparison of strings, on the underlying code
points (`True` when `a <= b`). -/
def charListLe : List Char → List Char → Bool
  | [], _ => true
  | _ :: _, [] => false
  | a :: as, b :: bs =>
    if a.toNat < b.toNat then true
    else if b.toNat < a.toNat then false
    else charListLe as bs

/-- `a <= b` on Python strings: code-point lexicographic order. -/
def strLe (a b : String) : Bool := charListLe a.data b.data

/-- Python's `str.lower()`, modelled character by character. -/
def pyLower (s : String) : String := String.mk (s.data.map Char.toLower)

/-- Python's `sorted` on a list of path strings (lexicographic, stable; on the
linear order of strings the output is determined by the multiset of
elements). -/
def pysort (l : List String) : List String :=
  l.insertionSort (fun a b => strLe a b = true)

/-- Sequencing of a fallible map over a list, in order, stopping at the
first failure: the shape of every Python `for` loop of this module that
appends per-element results and lets exceptions escape. -/
def mapMO {α β : Type} (f : α → Option β) : List α → Option (List β)
  | [] => some []
  | a :: l => (f a).bind (fun b => (mapMO f l).bind (fun r => some (b :: r)))

/-- `_get_objects_in_path(fs, path, target_type, extensions)`: list the
objects in `path`, keep those whose reported type matches, apply the
extension filter (entries without a dot are skipped, the extension is
compared case-folded against the given set), and return the sorted result.
`none` models the propagating `FileNotFoundError` of `fs.ls`. -/
def _get_objects_in_path (fs : FS) (path : String)
    (target_type : Option String) (extensions : Option (List String)) :
    Option (List String) :=
  match fs.ls path with
  | none => none
  | some files =>
    let result : List String :=
      match target_type with
      | some tt => (files.filter (fun e => e.type == tt)).map (fun e => e.name)
      | none => files.map (fun e => e.name)
    let result : List String :=
      match extensions with
      | none => result
      | some exts =>
        result.filterMap (fun entry =>
          match rsplitDot entry with
          | none => none
          | some be =>
            if exts.contains (pyLower be.2) then some entry else none)
    some (pysort result)

/-- The loop of `bisect.bisect_left` probed through a fallible indexed read
`g` (the `FuncBackedList.__getitem__` of the lazily extracted values); `none`
when a probe raises.  `fuel ≥ hi - lo` makes the fuel case unreachable. -/
def blAux (g : Nat → Option Int) (x : Int) : Nat → Nat → Nat → Option Nat
  | 0, lo, _ => some lo
  | fuel + 1, lo, hi =>
    if lo < hi then
      match g ((lo + hi) / 2) with
      | none => none
      | some v =>
        if v < x then blAux g x fuel ((lo + hi) / 2 + 1) hi
        else blAux g x fuel lo ((lo + hi) / 2)
    else some lo

/-- The loop of `bisect.bisect_right`, same conventions as `blAux`. -/
def brAux (g : Nat → Option Int) (x : Int) : Nat → Nat → Nat → Option Nat
  | 0, lo, _ => some lo
  | fuel + 1, lo, hi =>
    if lo < hi then
      match g ((lo + hi) / 2) with
      | none => none
      | some v =>
        if x < v then brAux g x fuel lo ((lo + hi) / 2)
        else brAux g x fuel ((lo + hi) / 2 + 1) hi
    else some lo

/-- `bisect.bisect_left(a, x)` over an indexed read of length `n`. -/
def bisectLeftE (g : Nat → Option Int) (x : Int) (n : Nat) : Option Nat :=
  blAux g x n 0 n

/-- `bisect.bisect_right(a, x)` over an indexed read of length `n`. -/
def bisectRightE (g : Nat → Option Int) (x : Int) (n : Nat) : Option Nat :=
  brAux g x n 0 n

/-- `_bisect_list(sorted_objects, extractor, lower_bound, upper_bound)`:
wrap the entries in a `FuncBackedList` of lazily extracted timestamps, find
`start_index` by `bisect_left` on the lower bound (decrementing it by one
when it is neither `0` nor the length), find `stop_index` by `bisect_right`
on the upper bound (clamped to the length), and return the slice
`sorted_objects[start_index:stop_index]`.  The extractor returns `Option Int`
because a lazy read may raise; `none` propagates. -/
def _bisect_list {α : Type} [Inhabited α] (sorted_objects : List α)
    (extractor : Option (α → Option Int))
    (lower_bound upper_bound : Option Int) : Option (List α) :=
  match extractor with
  | none => some ((sorted_objects.drop 0).take (sorted_objects.length - 0))
  | some f =>
    let g : Nat → Option Int := fun i => f (sorted_objects.getD i default)
    let si : Option Nat :=
      match lower_bound with
      | none => some 0
      | some lb =>
        (bisectLeftE g lb sorted_objects.length).map (fun i =>
          if i ≠ sorted_objects.length ∧ i ≠ 0 then i - 1 else i)
    let ti : Option Nat :=
      match upper_bound with
      | none => some sorted_objects.length
      | some ub =>
        (bisectRightE g ub sorted_objects.length).map (fun j =>
          if sorted_objects.length < j then sorted_objects.length else j)
    match si, ti with
    | some i, some j => some ((sorted_objects.drop i).take (j - i))
    | _, _ => none

/-- `_extract_date_wrapper(path, extract_date, fs)`: open the file and apply
the decoder; in the model `fs.extract` already stands for that composition,
and the open cannot fail (decoder errors are outside the embedding). -/
def _extract_date_wrapper (fs : FS) (path : String) : Option Int :=
  some (fs.extract path)

/-- `_extract_date_from_session_wrapper(path, extract_date, fs, extensions)`:
start from the Unix epoch, list the session's qualifying files (extensions
case-folded again), and if any exist decode the first one. -/
def _extract_date_from_session_wrapper (fs : FS) (extensions : List String)
    (path : String) : Option Int :=
  match _get_objects_in_path fs path (some "file")
      (some (extensions.map pyLower)) with
  | none => none
  | some session_log_files =>
    match session_log_files with
    | [] => some 0
    | f :: _ => some (fs.extract f)

/-- The body of the per-device loop of `get_log_files`: list the sessions
(a `FileNotFoundError` is caught and the device contributes nothing), select
sessions with `_bisect_list`, then branch on the number selected exactly as
the source does. -/
def deviceContribution (fs : FS) (extensions : List String)
    (start_date stop_date : Option Int) (device : String) :
    Option (List String) :=
  match _get_objects_in_path fs device (some "directory") none with
  | none => some []
  | some sessions => do
    let selected ← _bisect_list sessions
      (some (_extract_date_from_session_wrapper fs extensions))
      start_date stop_date
    if selected.length = 1 then
      let log_file_list ← _get_objects_in_path fs (selected.headD "")
        (some "file") (some extensions)
      _bisect_list log_file_list (some (_extract_date_wrapper fs))
        start_date stop_date
    else if 1 < selected.length then
      let firstFiles ← _get_objects_in_path fs (selected.headD "")
        (some "file") (some extensions)
      let firstPart ←
        if firstFiles.length = 1 then pure firstFiles
        else (_bisect_list firstFiles (some (_extract_date_wrapper fs))
          start_date none)
      let midFiles ← mapMO (fun s =>
        _get_objects_in_path fs s (some "file") (some extensions))
        ((selected.drop 1).dropLast)
      let lastFiles ← _get_objects_in_path fs (selected.getLastD "")
        (some "file") (some extensions)
      let lastPart ←
        if lastFiles.length = 1 then pure lastFiles
        else (_bisect_list lastFiles (some (_extract_date_wrapper fs))
          none stop_date)
      pure (firstPart ++ midFiles.flatten ++ lastPart)
    else
      pure []

/-- The in-place device list rewrite of `get_log_files`
(`devices[i] = "{}/{}".format(path, device)` over `enumerate(devices)`),
modelled as the fold the loop performs; this is the post-state of the
caller's `devices` argument. -/
def devicesAfterCall (path : String) (devices : List String) : List String :=
  (List.range devices.length).foldl
    (fun acc i => acc.set i (path ++ "/" ++ acc.getD i "")) devices

/-- `get_log_files(fs, devices, path, file_extensions, start_date,
stop_date)`: case-fold the extensions (default `["MF4"]`), prefix every
device with `path`, collect each device's contribution and return the sorted
merge.  `none` models an uncaught exception escaping the call. -/
def get_log_files (fs : FS) (devices : List String) (path : String)
    (file_extensions : Option (List String))
    (start_date stop_date : Option Int) : Option (List String) := do
  let extensions := (file_extensions.getD ["MF4"]).map pyLower
  let devs := devicesAfterCall path devices
  let parts ← mapMO (deviceContribution fs extensions start_date stop_date) devs
  pure (pysort parts.flatten)

/-- `_extract_date_helper(fs, path, extensions, extract_date)`: directories
resolve to their first qualifying file; files are decoded; anything else
yields `None`.  The outer `Option` is the escaping exception, the inner
`Option Int` is the Python `None`-or-timestamp result. -/
def _extract_date_helper (fs : FS) (path : String) (extensions : List String) :
    Option (Option Int) :=
  if fs.isdir path then
    match _get_objects_in_path fs path (some "file") (some extensions) with
    | none => none
    | some log_file_list =>
      let p := if 0 < log_file_list.length then log_file_list.getD 0 "" else path
      some (if fs.isfile p then some (fs.extract p) else none)
  else
    some (if fs.isfile path then some (fs.extract path) else none)

/-- `get_first_timestamp(fs, path, file_extensions)`: `path` is either a
single path (`Sum.inl`) or a list of paths (`Sum.inr`); a list input yields
the list of per-path results in input order. -/
def get_first_timestamp (fs : FS) (path : Sum String (List String))
    (file_extensions : Option (List String)) :
    Option (Sum (Option Int) (List (Option Int))) :=
  let extensions := (file_extensions.getD ["MF4"]).map pyLower
  match path with
  | Sum.inr entries =>
    (mapMO (fun entry => _extract_date_helper fs entry extensions) entries).map
      Sum.inr
  | Sum.inl p => (_extract_date_helper fs p extensions).map Sum.inl

/-- The state of a `FuncBackedList`: backing keys, the memo array (`none` is
Python's `None`, i.e. unresolved), and the backing function. -/
structure FuncBackedList (α β : Type) where
  _keys : List α
  _values : List (Option β)
  _func : α → β

/-- `FuncBackedList.__init__(func, items)`. -/
def FuncBackedList.init {α β : Type} (func : α → β) (items : List α) :
    FuncBackedList α β :=
  ⟨items, List.replicate items.length none, func⟩

/-- `FuncBackedList.__getitem__`: return the cached value, or invoke the
backing function, cache and return.  The returned triple is
(result, post-state, whether the backing function was invoked). -/
def FuncBackedList.getItem {α β : Type} [Inhabited α]
    (l : FuncBackedList α β) (i : Nat) : β × FuncBackedList α β × Bool :=
  match l._values.getD i none with
  | some v => (v, l, false)
  | none =>
    let v := l._func (l._keys.getD i default)
    (v, ⟨l._keys, l._values.set i (some v), l._func⟩, true)

/-- `n` successive indexed reads of index `i`: the list of returned values,
the final state, and the total number of backing-function invocations. -/
def FuncBackedList.reads {α β : Type} [Inhabited α]
    (l : FuncBackedList α β) (i : Nat) :
    Nat → List β × FuncBackedList α β × Nat
  | 0 => ([], l, 0)
  | n + 1 =>
    let r := l.getItem i
    let rest := FuncBackedList.reads r.2.1 i n
    (r.1 :: rest.1, rest.2.1, (if r.2.2 then 1 else 0) + rest.2.2)

/-- Leftmost index whose value is `≥ x` (the specification of
`bisect_left` on a non-decreasing list): length of the longest prefix of
values `< x`. -/
def linBL : List Int → Int → Nat
  | [], _ => 0
  | v :: rest, x => if v < x then linBL rest x + 1 else 0

/-- Leftmost index whose value is `> x` (the specification of
`bisect_right` on a non-decreasing list): length of the longest prefix of
values `≤ x`. -/
def linBR : List Int → Int → Nat
  | [], _ => 0
  | v :: rest, x => if v ≤ x then linBR rest x + 1 else 0

/-- The undecremented lower index of the range-selection specification:
leftmost index with value `≥ lower`, or `0` when `lower` is absent. -/
def baseIdx (vals : List Int) : Option Int → Nat
  | none => 0
  | some lb => linBL vals lb

/-- The lower index after the backward-inclusion decrement of the
specification: `baseIdx` minus one when that is neither `0` nor the
length. -/
def decIdx (vals : List Int) : Option Int → Nat
  | none => 0
  | some lb =>
    if linBL vals lb ≠ vals.length ∧ linBL vals lb ≠ 0 then linBL vals lb - 1
    else linBL vals lb

/-- The upper index of the range-selection specification: leftmost index
with value `> upper`, or the length when `upper` is absent. -/
def upIdx (vals : List Int) : Option Int → Nat
  | none => vals.length
  | some ub => linBR vals ub

/-! ## Order theory of the string comparison -/

theorem charListLe_total : ∀ a b : List Char,
    charListLe a b = true ∨ charListLe b a = true := by
  intro a
  induction a with
  | nil => intro b; left; cases b <;> rfl
  | cons x xs ih =>
    intro b
    cases b with
    | nil => right; rfl
    | cons y ys =>
      simp only [charListLe]
      rcases Nat.lt_trichotomy x.toNat y.toNat with h | h | h
      · left; simp [h]
      · have h2 : ¬ x.toNat < y.toNat := by omega
        have h3 : ¬ y.toNat < x.toNat := by omega
        simpa [h2, h3] using ih ys
      · right; simp [h]

theorem charListLe_trans : ∀ a b c : List Char,
    charListLe a b = true → charListLe b c = true → charListLe a c = true := by
  intro a
  induction a with
  | nil => intro b c _ _; cases c <;> rfl
  | cons x xs ih =>
    intro b c hab hbc
    cases b with
    | nil => simp [charListLe] at hab
    | cons y ys =>
      cases c with
      | nil => simp [charListLe] at hbc
      | cons z zs =>
        simp only [charListLe] at hab hbc ⊢
        split_ifs at hab hbc ⊢ <;> first
          | rfl
          | omega
          | (exact ih ys zs hab hbc)

theorem charListLe_antisymm : ∀ a b : List Char,
    charListLe a b = true → charListLe b a = true → a = b := by
  intro a
  induction a with
  | nil =>
    intro b _ hba
    cases b with
    | nil => rfl
    | cons y ys => simp [charListLe] at hba
  | cons x xs ih =>
    intro b hab hba
    cases b with
    | nil => simp [charListLe] at hab
    | cons y ys =>
      simp only [charListLe] at hab hba
      split_ifs at hab hba with h1 h2 <;> try omega
      · have hxy : x.toNat = y.toNat := by omega
        rw [Char.ext (UInt32.ext hxy), ih ys hab hba]

/-- The string order used by `pysort` is total. -/
instance : IsTotal String (fun a b => strLe a b = true) :=
  ⟨fun a b => charListLe_total a.data b.data⟩

/-- The string order used by `pysort` is transitive. -/
instance : IsTrans String (fun a b => strLe a b = true) :=
  ⟨fun a b c => charListLe_trans a.data b.data c.data⟩

/-- The string order used by `pysort` is antisymmetric. -/
instance : IsAntisymm String (fun a b => strLe a b = true) :=
  ⟨fun a b h h2 => String.ext (charListLe_antisymm a.data b.data h h2)⟩

theorem pysort_sorted (l : List String) :
    (pysort l).Sorted (fun a b => strLe a b = true) :=
  List.sorted_insertionSort _ l

theorem pysort_perm (l : List String) : (pysort l).Perm l :=
  List.perm_insertionSort _ l

theorem pysort_eq_of_perm {l₁ l₂ : List String} (h : l₁.Perm l₂) :
    pysort l₁ = pysort l₂ :=
  List.eq_of_perm_of_sorted ((pysort_perm l₁).trans (h.trans (pysort_perm l₂).symm))
    (pysort_sorted l₁) (pysort_sorted l₂)

/-! ## C4: FuncBackedList memoization -/

theorem getD_replicate_none {β : Type} (n i : Nat) :
    (List.replicate n (none : Option β)).getD i none = none := by
  rw [List.getD_eq_getElem?_getD, List.getElem?_replicate]
  split <;> rfl

theorem FuncBackedList.getItem_cached {α β : Type} [Inhabited α]
    (l : FuncBackedList α β) (i : Nat) (v : β)
    (h : l._values.getD i none = some v) :
    l.getItem i = (v, l, false) := by
  unfold FuncBackedList.getItem
  rw [h]

theorem FuncBackedList.reads_cached {α β : Type} [Inhabited α]
    (l : FuncBackedList α β) (i : Nat) (v : β)
    (h : l._values.getD i none = some v) :
    ∀ n, l.reads i n = (List.replicate n v, l, 0) := by
  intro n
  induction n with
  | zero => rfl
  | succ n ih =>
    simp only [FuncBackedList.reads, FuncBackedList.getItem_cached l i v h, ih]
    rfl

/-- C4: on a `FuncBackedList` built from extractor `f` and a key list, any
positive number `n` of repeated reads of a valid index `i` invokes `f`
exactly once, every read returns the identical value `f(keys[i])`, and the
final state has index `i` resolved to that value (never to be recomputed). -/
theorem C4_funcBackedList_reads_memoized {α β : Type} [Inhabited α]
    (f : α → β) (keys : List α) (i n : Nat)
    (hi : i < keys.length) (hn : 0 < n) :
    ((FuncBackedList.init f keys).reads i n).2.2 = 1 ∧
    ((FuncBackedList.init f keys).reads i n).1 =
      List.replicate n (f (keys.getD i default)) ∧
    ((FuncBackedList.init f keys).reads i n).2.1._values.getD i none =
      some (f (keys.getD i default)) := by
  obtain ⟨m, rfl⟩ : ∃ m, n = m + 1 := ⟨n - 1, by omega⟩
  set v := f (keys.getD i default) with hv
  set l2 : FuncBackedList α β :=
    ⟨keys, (List.replicate keys.length (none : Option β)).set i (some v), f⟩
    with hl2
  have hfirst : (FuncBackedList.init f keys).getItem i = (v, l2, true) := by
    unfold FuncBackedList.getItem FuncBackedList.init
    rw [getD_replicate_none]
  have hcache : l2._values.getD i none = some v := by
    rw [hl2]
    rw [List.getD_eq_getElem?_getD, List.getElem?_set_self]
    · simp
    · simpa using hi
  simp only [FuncBackedList.reads, hfirst,
    FuncBackedList.reads_cached l2 i v hcache m]
  refine ⟨by simp, by simp [List.replicate_succ], hcache⟩

/-- Witness for C4 at a concrete instance. -/
theorem C4_witness :
    (0 : Nat) < 2 ∧ (1 : Nat) < 3 ∧
    ((FuncBackedList.init (fun s : String => s ++ "!") ["a", "b", "c"]).reads
      1 2).2.2 = 1 := by
  refine ⟨by decide, by decide, ?_⟩
  exact (C4_funcBackedList_reads_memoized (fun s : String => s ++ "!")
    ["a", "b", "c"] 1 2 (by decide) (by decide)).1

/-! ## C9: in-place rewrite of the devices argument -/

theorem foldl_set_shift (g : String → String) :
    ∀ (is : List Nat) (b : String) (l : List String),
      List.foldl (fun acc i => acc.set (i + 1) (g (acc.getD (i + 1) ""))) (b :: l) is
        = b :: List.foldl (fun acc i => acc.set i (g (acc.getD i ""))) l is := by
  intro is
  induction is with
  | nil => intro b l; rfl
  | cons i is ih =>
    intro b l
    simp only [List.foldl_cons, List.getD_cons_succ, List.set_cons_succ]
    exact ih b _

theorem devicesAfterCall_eq_map (path : String) (devices : List String) :
    devicesAfterCall path devices = devices.map (fun d => path ++ "/" ++ d) := by
  induction devices with
  | nil => rfl
  | cons d ds ih =>
    unfold devicesAfterCall at ih ⊢
    rw [List.length_cons, List.range_succ_eq_map, List.foldl_cons, List.foldl_map]
    have h0 : (d :: ds).set 0 (path ++ "/" ++ (d :: ds).getD 0 "")
        = (path ++ "/" ++ d) :: ds := rfl
    rw [h0]
    have hshift := foldl_set_shift (fun s => path ++ "/" ++ s)
      (List.range ds.length) (path ++ "/" ++ d) ds
    simp only [List.map_cons]
    exact hshift.trans (congrArg (List.cons (path ++ "/" ++ d)) ih)

/-- C9: after a call to `get_log_files`, the caller's `devices` list has been
rewritten in place: every element is `path ++ "/" ++` its original value (so
the list is not left unchanged at any index). -/
theorem C9_devices_mutated_in_place (path : String) (devices : List String) :
    devicesAfterCall path devices = devices.map (fun d => path ++ "/" ++ d) ∧
    ∀ i, i < devices.length →
      (devicesAfterCall path devices).getD i "" ≠ devices.getD i "" := by
  refine ⟨devicesAfterCall_eq_map path devices, ?_⟩
  intro i hi
  rw [devicesAfterCall_eq_map path devices]
  have hmap : (devices.map (fun d => path ++ "/" ++ d)).getD i ""
      = path ++ "/" ++ devices.getD i "" := by
    have hi2 : i < (devices.map (fun d => path ++ "/" ++ d)).length := by
      simpa using hi
    rw [List.getD_eq_getElem?_getD, List.getElem?_eq_getElem hi2,
      List.getElem_map, List.getD_eq_getElem?_getD, List.getElem?_eq_getElem hi]
    rfl
  rw [hmap]
  intro hcontra
  have := congrArg String.length hcontra
  simp only [String.length_append] at this
  have hslash : ("/" : String).length = 1 := rfl
  omega

/-- Witness for C9 at a concrete instance. -/
theorem C9_witness :
    (0 : Nat) < 2 ∧
    (devicesAfterCall "base" ["d1", "d2"]).getD 0 "" ≠ (["d1", "d2"] : List String).getD 0 "" := by
  refine ⟨by decide, ?_⟩
  exact (C9_devices_mutated_in_place "base" ["d1", "d2"]).2 0 (by decide)

/-! ## C10: list input to get_first_timestamp -/

theorem mapMO_nil {α β : Type} (f : α → Option β) : mapMO f [] = some [] := rfl

theorem mapMO_cons {α β : Type} (f : α → Option β) (a : α) (l : List α) :
    mapMO f (a :: l)
      = (f a).bind (fun b => (mapMO f l).bind (fun r => some (b :: r))) := rfl

theorem mapMO_append {α β : Type} (f : α → Option β) :
    ∀ (l₁ l₂ : List α),
      mapMO f (l₁ ++ l₂)
        = (mapMO f l₁).bind (fun a =>
            (mapMO f l₂).bind (fun b => some (a ++ b))) := by
  intro l₁
  induction l₁ with
  | nil =>
    intro l₂
    rw [List.nil_append, mapMO_nil, Option.some_bind]
    cases mapMO f l₂ <;> simp
  | cons a l ih =>
    intro l₂
    rw [List.cons_append, mapMO_cons, mapMO_cons, ih]
    cases f a <;> cases mapMO f l <;> cases mapMO f l₂ <;> simp

theorem mapMO_spec {α β : Type} (f : α → Option β) (da : α) (db : β) :
    ∀ (l : List α) (res : List β), mapMO f l = some res →
      res.length = l.length ∧
      ∀ i, i < l.length → f (l.getD i da) = some (res.getD i db) := by
  intro l
  induction l with
  | nil =>
    intro res h
    simp only [mapMO, Option.some.injEq] at h
    subst h
    exact ⟨rfl, fun i hi => by simp at hi⟩
  | cons a l ih =>
    intro res h
    rw [mapMO_cons] at h
    cases hfa : f a with
    | none => rw [hfa] at h; simp at h
    | some v =>
      rw [hfa] at h
      cases hml : mapMO f l with
      | none => rw [hml] at h; simp at h
      | some vs =>
        rw [hml] at h
        simp at h
        subst h
        obtain ⟨hlen, hel⟩ := ih vs hml
        refine ⟨by simp [hlen], ?_⟩
        intro i hi
        cases i with
        | zero => simpa using hfa
        | succ j =>
          rw [List.getD_cons_succ, List.getD_cons_succ]
          exact hel j (by simpa using hi)

/-- C10: a list passed as `path` to `get_first_timestamp` yields a list of
the same length whose `i`-th element is the per-path resolution
(`_extract_date_helper`) of the `i`-th input path, in input order; the
resolution is `None` for a path that is neither a file nor a directory, and
for a directory with no qualifying files that is not itself a file. -/
theorem C10_get_first_timestamp_list_input (fs : FS) (paths : List String)
    (fexts : Option (List String)) (res : List (Option Int))
    (h : get_first_timestamp fs (Sum.inr paths) fexts = some (Sum.inr res)) :
    res.length = paths.length ∧
    (∀ i, i < paths.length →
      _extract_date_helper fs (paths.getD i "") ((fexts.getD ["MF4"]).map pyLower)
        = some (res.getD i none)) ∧
    (∀ p, fs.isdir p = false → fs.isfile p = false →
      _extract_date_helper fs p ((fexts.getD ["MF4"]).map pyLower) = some none) ∧
    (∀ p, fs.isdir p = true →
      _get_objects_in_path fs p (some "file")
        (some ((fexts.getD ["MF4"]).map pyLower)) = some [] →
      fs.isfile p = false →
      _extract_date_helper fs p ((fexts.getD ["MF4"]).map pyLower) = some none) := by
  have hm : mapMO
      (fun entry => _extract_date_helper fs entry ((fexts.getD ["MF4"]).map pyLower))
      paths = some res := by
    have h2 : (mapMO (fun entry =>
        _extract_date_helper fs entry ((fexts.getD ["MF4"]).map pyLower))
        paths).map Sum.inr = some (Sum.inr res) := h
    cases hmm : mapMO
        (fun entry => _extract_date_helper fs entry ((fexts.getD ["MF4"]).map pyLower))
        paths with
    | none => rw [hmm] at h2; simp at h2
    | some r =>
      rw [hmm] at h2
      simp at h2
      rw [h2]
  obtain ⟨hlen, hel⟩ := mapMO_spec _ "" (none : Option Int) paths res hm
  refine ⟨hlen, hel, ?_, ?_⟩
  · intro p hdir hfile
    unfold _extract_date_helper
    simp [hdir, hfile]
  · intro p hdir hempty hfile
    unfold _extract_date_helper
    simp [hdir, hempty, hfile]

def fs10 : FS where
  ls := fun p =>
    if p = "dir1" then some [⟨"dir1/a.mf4", "file"⟩] else some []
  isdir := fun p => p == "dir1"
  isfile := fun p => p == "f1" || p == "dir1/a.mf4"
  extract := fun p => if p = "f1" then 42 else if p = "dir1/a.mf4" then 7 else 0

/-- Witness for C10 at a concrete instance. -/
theorem C10_witness :
    get_first_timestamp fs10 (Sum.inr ["f1", "dir1", "nope"]) none
      = some (Sum.inr [some 42, some 7, none]) ∧
    ([some 42, some 7, none] : List (Option Int)).length
      = (["f1", "dir1", "nope"] : List String).length := by
  refine ⟨by decide, ?_⟩
  exact (C10_get_first_timestamp_list_input fs10 ["f1", "dir1", "nope"] none
    [some 42, some 7, none] (by decide)).1

/-! ## C8: extension filtering -/

/-- The specification's keep-predicate for extension filtering: the entry's
last dot-separated suffix, case-folded, must be a member of the given set;
entries without a dot are dropped. -/
def extKeep (extensions : List String) (entry : String) : Bool :=
  match rsplitDot entry with
  | none => false
  | some be => extensions.contains (pyLower be.2)

theorem filterMap_guard_eq_filter (exts : List String) (l : List String) :
    l.filterMap (fun entry =>
      match rsplitDot entry with
      | none => none
      | some be => if exts.contains (pyLower be.2) then some entry else none)
    = l.filter (extKeep exts) := by
  induction l with
  | nil => rfl
  | cons a l ih =>
    cases h : rsplitDot a with
    | none => simpa [List.filterMap_cons, List.filter_cons, extKeep, h] using ih
    | some be =>
      by_cases hc : pyLower be.2 ∈ exts <;>
        simpa [List.filterMap_cons, List.filter_cons, extKeep, h, hc] using ih

/-- C8: with an extension filter active, a directory listing keeps exactly
the entries whose last dot-separated suffix, case-folded, belongs to the
set (dotless entries are dropped); and at the API level the extension set is
case-folded on entry, so extension sets equal up to case yield identical
results of `get_log_files`. -/
theorem C8_extension_filtering :
    (∀ (fs : FS) (p : String) (tt : Option String) (exts : List String),
      _get_objects_in_path fs p tt (some exts)
        = (_get_objects_in_path fs p tt none).map
            (fun base => pysort (base.filter (extKeep exts)))) ∧
    (∀ (fs : FS) (devices : List String) (path : String)
        (e1 e2 : List String) (sd ed : Option Int),
      e1.map pyLower = e2.map pyLower →
      get_log_files fs devices path (some e1) sd ed
        = get_log_files fs devices path (some e2) sd ed) := by
  constructor
  · intro fs p tt exts
    unfold _get_objects_in_path
    cases fs.ls p with
    | none => rfl
    | some files =>
      dsimp only
      rw [filterMap_guard_eq_filter]
      exact congrArg some (pysort_eq_of_perm ((pysort_perm _).filter _).symm)
  · intro fs devices path e1 e2 sd ed h
    unfold get_log_files
    simp only [Option.getD_some]
    rw [h]

def fs8 : FS where
  ls := fun p =>
    if p = "p" then
      some [⟨"p/a.MF4", "file"⟩, ⟨"p/b.txt", "file"⟩, ⟨"p/c", "file"⟩,
        ⟨"p/d.mf4", "file"⟩]
    else some []
  isdir := fun _ => false
  isfile := fun _ => false
  extract := fun _ => 0

/-- Witness for C8 at a concrete instance. -/
theorem C8_witness :
    _get_objects_in_path fs8 "p" (some "file") (some ["mf4"])
      = (_get_objects_in_path fs8 "p" (some "file") none).map
          (fun base => pysort (base.filter (extKeep ["mf4"]))) ∧
    get_log_files fs8 ["dev"] "r" (some ["mf4"]) none none
      = get_log_files fs8 ["dev"] "r" (some ["MF4"]) none none := by
  constructor
  · exact C8_extension_filtering.1 fs8 "p" (some "file") ["mf4"]
  · exact C8_extension_filtering.2 fs8 ["dev"] "r" ["mf4"] ["MF4"] none none
      (by decide)

/-! ## C7: a missing device root is skipped silently -/

theorem deviceContribution_missing (fs : FS) (exts : List String)
    (sd ed : Option Int) (device : String) (h : fs.ls device = none) :
    deviceContribution fs exts sd ed device = some [] := by
  unfold deviceContribution _get_objects_in_path
  rw [h]

/-- C7: a requested device whose root directory listing raises
`FileNotFoundError` contributes zero entries to `get_log_files`, raises no
error, and the remaining devices are processed as if it were absent. -/
theorem C7_missing_device_skipped (fs : FS) (path : String)
    (fexts : Option (List String)) (sd ed : Option Int)
    (pre post : List String) (dev : String)
    (hmissing : fs.ls (path ++ "/" ++ dev) = none) :
    get_log_files fs (pre ++ dev :: post) path fexts sd ed
      = get_log_files fs (pre ++ post) path fexts sd ed := by
  unfold get_log_files
  dsimp only
  rw [devicesAfterCall_eq_map, devicesAfterCall_eq_map]
  rw [List.map_append, List.map_append, List.map_cons]
  rw [mapMO_append, mapMO_append, mapMO_cons]
  rw [deviceContribution_missing fs _ sd ed _ hmissing]
  cases hpre : mapMO
      (deviceContribution fs ((fexts.getD ["MF4"]).map pyLower) sd ed)
      (pre.map fun d => path ++ "/" ++ d) with
  | none => simp
  | some a =>
    cases hpost : mapMO
        (deviceContribution fs ((fexts.getD ["MF4"]).map pyLower) sd ed)
        (post.map fun d => path ++ "/" ++ d) with
    | none => simp [hpre, hpost]
    | some b => simp [hpre, hpost]

def fs7 : FS where
  ls := fun p =>
    if p = "r/present" then
      some [⟨"r/present/s1", "directory"⟩]
    else if p = "r/present/s1" then
      some [⟨"r/present/s1/a.mf4", "file"⟩]
    else if p = "r/gone" then none
    else some []
  isdir := fun _ => false
  isfile := fun _ => false
  extract := fun _ => 5

/-- Witness for C7 at a concrete instance. -/
theorem C7_witness :
    fs7.ls ("r" ++ "/" ++ "gone") = none ∧
    get_log_files fs7 ["gone", "present"] "r" none none none
      = get_log_files fs7 ["present"] "r" none none none := by
  refine ⟨by decide, ?_⟩
  exact C7_missing_device_skipped fs7 "r" none none none [] ["present"] "gone"
    (by decide)

/-! ## C3: the empty-session timestamp -/

def fs3 : FS where
  ls := fun p =>
    if p = "r/d" then
      some [⟨"r/d/s1", "directory"⟩, ⟨"r/d/s2", "directory"⟩,
        ⟨"r/d/s3", "directory"⟩]
    else if p = "r/d/s2" then some [⟨"r/d/s2/a.mf4", "file"⟩]
    else if p = "r/d/s3" then some [⟨"r/d/s3/b.mf4", "file"⟩]
    else some []
  isdir := fun _ => false
  isfile := fun _ => false
  extract := fun p => if p = "r/d/s2/a.mf4" then 2020 else 2021

/-- C3 counterexample: the session extractor maps an empty session to `0`
(the Unix epoch) — not a minimum of the timestamp domain, which has smaller
elements — and an empty session *can* be excluded by a lower bound of the
window: with sessions timestamped `[0, 2020, 2021]` and lower bound `2021`,
the session selection of `get_log_files` drops the empty session `r/d/s1`
even though the window is not empty. -/
theorem C3_counterexample :
    _extract_date_from_session_wrapper fs3 ["mf4"] "r/d/s1" = some 0 ∧
    (∃ t : Int, t < 0) ∧
    _get_objects_in_path fs3 "r/d" (some "directory") none
      = some ["r/d/s1", "r/d/s2", "r/d/s3"] ∧
    _bisect_list ["r/d/s1", "r/d/s2", "r/d/s3"]
      (some (_extract_date_from_session_wrapper fs3 ["mf4"])) (some 2021) none
      = some ["r/d/s2", "r/d/s3"] ∧
    "r/d/s1" ∉ (["r/d/s2", "r/d/s3"] : List String) :=
  ⟨by decide, ⟨-1, by decide⟩, by decide, by decide, by decide⟩

/-- C3 amended: the session-level extractor returns the Unix epoch (`0`) for
a session directory with no qualifying files; such sessions sort first only
among sessions with timestamps at or after the epoch, and they can still be
excluded by a lower bound through the range selection. -/
theorem C3_amended_empty_session_epoch (fs : FS) (exts : List String)
    (p : String)
    (h : _get_objects_in_path fs p (some "file") (some (exts.map pyLower))
      = some []) :
    _extract_date_from_session_wrapper fs exts p = some 0 := by
  unfold _extract_date_from_session_wrapper
  rw [h]

/-- Witness for the amended C3 at a concrete instance. -/
theorem C3_amended_witness :
    _get_objects_in_path fs3 "r/d/s1" (some "file")
      (some ((["mf4"] : List String).map pyLower)) = some [] ∧
    _extract_date_from_session_wrapper fs3 ["mf4"] "r/d/s1" = some 0 := by
  refine ⟨by decide, ?_⟩
  exact C3_amended_empty_session_epoch fs3 ["mf4"] "r/d/s1" (by decide)

/-! ## Specification of the bisection loops -/

theorem linBL_le_length (vals : List Int) (x : Int) : linBL vals x ≤ vals.length := by
  induction vals with
  | nil => simp [linBL]
  | cons v rest ih =>
    simp only [linBL, List.length_cons]
    split <;> omega

theorem linBR_le_length (vals : List Int) (x : Int) : linBR vals x ≤ vals.length := by
  induction vals with
  | nil => simp [linBR]
  | cons v rest ih =>
    simp only [linBR, List.length_cons]
    split <;> omega

theorem getD_lt_of_lt_linBL :
    ∀ {vals : List Int} {x : Int} {k : Nat}, k < linBL vals x →
      vals.getD k 0 < x := by
  intro vals
  induction vals with
  | nil => intro x k h; simp [linBL] at h
  | cons v rest ih =>
    intro x k h
    simp only [linBL] at h
    split at h
    · cases k with
      | zero => assumption
      | succ j => rw [List.getD_cons_succ]; exact ih (by omega)
    · omega

theorem getD_le_of_lt_linBR :
    ∀ {vals : List Int} {x : Int} {k : Nat}, k < linBR vals x →
      vals.getD k 0 ≤ x := by
  intro vals
  induction vals with
  | nil => intro x k h; simp [linBR] at h
  | cons v rest ih =>
    intro x k h
    simp only [linBR] at h
    split at h
    · cases k with
      | zero => assumption
      | succ j => rw [List.getD_cons_succ]; exact ih (by omega)
    · omega

theorem not_lt_getD_linBL :
    ∀ {vals : List Int} {x : Int}, linBL vals x < vals.length →
      ¬ vals.getD (linBL vals x) 0 < x := by
  intro vals
  induction vals with
  | nil => intro x h; simp [linBL] at h
  | cons v rest ih =>
    intro x h
    by_cases hv : v < x
    · simp only [linBL, if_pos hv, List.length_cons] at h ⊢
      rw [List.getD_cons_succ]
      exact ih (by omega)
    · simp only [linBL, if_neg hv] at h ⊢
      simpa using hv

theorem linBL_eq_of :
    ∀ {vals : List Int} {x : Int} {n : Nat}, n ≤ vals.length →
      (∀ k, k < n → vals.getD k 0 < x) →
      (∀ k, n ≤ k → k < vals.length → ¬ vals.getD k 0 < x) →
      linBL vals x = n := by
  intro vals
  induction vals with
  | nil =>
    intro x n hn _ _
    simp only [List.length_nil, Nat.le_zero] at hn
    simp [linBL, hn]
  | cons v rest ih =>
    intro x n hn h1 h2
    cases n with
    | zero =>
      have hv : ¬ v < x := h2 0 (by omega) (by simp)
      simp [linBL, hv]
    | succ m =>
      have hv : v < x := h1 0 (by omega)
      simp only [linBL, if_pos hv]
      have heq : linBL rest x = m := by
        apply ih (by simpa using hn)
        · intro k hk
          have := h1 (k + 1) (by omega)
          rwa [List.getD_cons_succ] at this
        · intro k hk hk2
          have := h2 (k + 1) (by omega) (by simpa using hk2)
          rwa [List.getD_cons_succ] at this
      omega

theorem linBR_eq_of :
    ∀ {vals : List Int} {x : Int} {n : Nat}, n ≤ vals.length →
      (∀ k, k < n → vals.getD k 0 ≤ x) →
      (∀ k, n ≤ k → k < vals.length → ¬ vals.getD k 0 ≤ x) →
      linBR vals x = n := by
  intro vals
  induction vals with
  | nil =>
    intro x n hn _ _
    simp only [List.length_nil, Nat.le_zero] at hn
    simp [linBR, hn]
  | cons v rest ih =>
    intro x n hn h1 h2
    cases n with
    | zero =>
      have hv : ¬ v ≤ x := h2 0 (by omega) (by simp)
      simp [linBR, hv]
    | succ m =>
      have hv : v ≤ x := h1 0 (by omega)
      simp only [linBR, if_pos hv]
      have heq : linBR rest x = m := by
        apply ih (by simpa using hn)
        · intro k hk
          have := h1 (k + 1) (by omega)
          rwa [List.getD_cons_succ] at this
        · intro k hk hk2
          have := h2 (k + 1) (by omega) (by simpa using hk2)
          rwa [List.getD_cons_succ] at this
      omega

theorem blAux_spec (g : Nat → Option Int) (vals : List Int) (x : Int) :
    ∀ (fuel lo hi : Nat),
      (∀ i, i < vals.length → g i = some (vals.getD i 0)) →
      (∀ i j, i ≤ j → j < vals.length → vals.getD i 0 ≤ vals.getD j 0) →
      hi - lo ≤ fuel → lo ≤ hi → hi ≤ vals.length →
      (∀ k, k < lo → vals.getD k 0 < x) →
      (∀ k, hi ≤ k → k < vals.length → ¬ vals.getD k 0 < x) →
      blAux g x fuel lo hi = some (linBL vals x) := by
  intro fuel
  induction fuel with
  | zero =>
    intro lo hi hg hmono hfuel hlh hhi h1 h2
    have hx : lo = hi := by omega
    subst hx
    simp only [blAux]
    rw [linBL_eq_of (by omega) h1 h2]
  | succ fuel ih =>
    intro lo hi hg hmono hfuel hlh hhi h1 h2
    by_cases hlt : lo < hi
    · simp only [blAux, if_pos hlt]
      have hmid : (lo + hi) / 2 < vals.length := by omega
      rw [hg _ hmid]
      dsimp only
      by_cases hv : vals.getD ((lo + hi) / 2) 0 < x
      · rw [if_pos hv]
        apply ih ((lo + hi) / 2 + 1) hi hg hmono (by omega) (by omega) hhi
        · intro k hk
          exact lt_of_le_of_lt (hmono k _ (by omega) hmid) hv
        · exact h2
      · rw [if_neg hv]
        apply ih lo ((lo + hi) / 2) hg hmono (by omega) (by omega) (by omega) h1
        intro k hk hk2 hcon
        exact hv (lt_of_le_of_lt (hmono _ k hk hk2) hcon)
    · simp only [blAux, if_neg hlt]
      have hx : lo = hi := by omega
      subst hx
      rw [linBL_eq_of (by omega) h1 h2]

theorem brAux_spec (g : Nat → Option Int) (vals : List Int) (x : Int) :
    ∀ (fuel lo hi : Nat),
      (∀ i, i < vals.length → g i = some (vals.getD i 0)) →
      (∀ i j, i ≤ j → j < vals.length → vals.getD i 0 ≤ vals.getD j 0) →
      hi - lo ≤ fuel → lo ≤ hi → hi ≤ vals.length →
      (∀ k, k < lo → vals.getD k 0 ≤ x) →
      (∀ k, hi ≤ k → k < vals.length → ¬ vals.getD k 0 ≤ x) →
      brAux g x fuel lo hi = some (linBR vals x) := by
  intro fuel
  induction fuel with
  | zero =>
    intro lo hi hg hmono hfuel hlh hhi h1 h2
    have hx : lo = hi := by omega
    subst hx
    simp only [brAux]
    rw [linBR_eq_of (by omega) h1 h2]
  | succ fuel ih =>
    intro lo hi hg hmono hfuel hlh hhi h1 h2
    by_cases hlt : lo < hi
    · simp only [brAux, if_pos hlt]
      have hmid : (lo + hi) / 2 < vals.length := by omega
      rw [hg _ hmid]
      dsimp only
      by_cases hv : x < vals.getD ((lo + hi) / 2) 0
      · rw [if_pos hv]
        apply ih lo ((lo + hi) / 2) hg hmono (by omega) (by omega) (by omega) h1
        intro k hk hk2 hcon
        exact absurd (lt_of_lt_of_le hv (hmono _ k hk hk2)) (not_lt.mpr hcon)
      · rw [if_neg hv]
        apply ih ((lo + hi) / 2 + 1) hi hg hmono (by omega) (by omega) hhi
        · intro k hk
          exact le_trans (hmono k _ (by omega) hmid) (not_lt.mp hv)
        · exact h2
    · simp only [brAux, if_neg hlt]
      have hx : lo = hi := by omega
      subst hx
      rw [linBR_eq_of (by omega) h1 h2]

theorem bisectLeftE_spec (g : Nat → Option Int) (vals : List Int) (x : Int)
    (hg : ∀ i, i < vals.length → g i = some (vals.getD i 0))
    (hmono : ∀ i j, i ≤ j → j < vals.length → vals.getD i 0 ≤ vals.getD j 0) :
    bisectLeftE g x vals.length = some (linBL vals x) :=
  blAux_spec g vals x vals.length 0 vals.length hg hmono (by omega) (by omega)
    (le_refl _) (fun k hk => absurd hk (by omega))
    (fun k hk hk2 => absurd hk2 (by omega))

theorem bisectRightE_spec (g : Nat → Option Int) (vals : List Int) (x : Int)
    (hg : ∀ i, i < vals.length → g i = some (vals.getD i 0))
    (hmono : ∀ i j, i ≤ j → j < vals.length → vals.getD i 0 ≤ vals.getD j 0) :
    bisectRightE g x vals.length = some (linBR vals x) :=
  brAux_spec g vals x vals.length 0 vals.length hg hmono (by omega) (by omega)
    (le_refl _) (fun k hk => absurd hk (by omega))
    (fun k hk hk2 => absurd hk2 (by omega))

theorem sorted_getD_mono {vals : List Int}
    (h : vals.Sorted (fun a b => a ≤ b)) :
    ∀ i j, i ≤ j → j < vals.length → vals.getD i 0 ≤ vals.getD j 0 := by
  intro i j hij hj
  have hi : i < vals.length := by omega
  rw [List.getD_eq_getElem?_getD, List.getElem?_eq_getElem hi,
    List.getD_eq_getElem?_getD, List.getElem?_eq_getElem hj]
  rcases eq_or_lt_of_le hij with rfl | hlt
  · simp
  · have := List.pairwise_iff_get.mp h ⟨i, hi⟩ ⟨j, hj⟩ (Fin.mk_lt_mk.mpr hlt)
    simpa using this

theorem getD_map_int {α : Type} [Inhabited α] (f : α → Int) (S : List α)
    {i : Nat} (h : i < S.length) :
    (S.map f).getD i 0 = f (S.getD i default) := by
  rw [List.getD_eq_getElem?_getD,
    List.getElem?_eq_getElem (by simpa using h), List.getElem_map,
    List.getD_eq_getElem?_getD, List.getElem?_eq_getElem h]
  rfl

/-! ## C1: the range selection of `_bisect_list` -/

theorem _bisect_list_pure_eq {α : Type} [Inhabited α] (S : List α)
    (f : α → Int) (lower upper : Option Int)
    (hs : (S.map f).Sorted (fun a b => a ≤ b)) :
    _bisect_list S (some (fun a => some (f a))) lower upper
      = some ((S.drop (decIdx (S.map f) lower)).take
          (upIdx (S.map f) upper - decIdx (S.map f) lower)) := by
  have hmono := sorted_getD_mono hs
  have hlen : (S.map f).length = S.length := by simp
  have hg : ∀ i, i < (S.map f).length →
      (fun i => some (f (S.getD i default))) i = some ((S.map f).getD i 0) := by
    intro i hi
    rw [getD_map_int f S (by omega)]
  unfold _bisect_list
  dsimp only
  rw [← hlen]
  cases lower with
  | none =>
    cases upper with
    | none =>
      dsimp only [decIdx, upIdx]
    | some ub =>
      dsimp only
      rw [bisectRightE_spec _ (S.map f) ub hg hmono]
      dsimp only [Option.map, decIdx, upIdx]
      rw [if_neg (not_lt.mpr (linBR_le_length (S.map f) ub))]
  | some lb =>
    cases upper with
    | none =>
      dsimp only
      rw [bisectLeftE_spec _ (S.map f) lb hg hmono]
      dsimp only [Option.map, decIdx, upIdx]
    | some ub =>
      dsimp only
      rw [bisectLeftE_spec _ (S.map f) lb hg hmono,
        bisectRightE_spec _ (S.map f) ub hg hmono]
      dsimp only [Option.map, decIdx, upIdx]
      rw [if_neg (not_lt.mpr (linBR_le_length (S.map f) ub))]

/-- C1: on a sorted entry list with a monotone extractor, `_bisect_list`
returns exactly the contiguous slice `S[i:j]` where `i` is the leftmost index
with `f S[i] ≥ lower` (0 when `lower` is absent), decremented by one when it
is neither `0` nor the length (`decIdx`), and `j` is the leftmost index with
`f S[j] > upper` (the length when `upper` is absent, `upIdx`); every retained
entry from the undecremented index onwards has its `f`-value inside
`[lower, upper]` (so only the one extra backward-included entry may fall
outside), and the result is empty when `j ≤ i`. -/
theorem C1_bisect_list_range_selection {α : Type} [Inhabited α] (S : List α)
    (f : α → Int) (lower upper : Option Int)
    (hs : (S.map f).Sorted (fun a b => a ≤ b)) :
    _bisect_list S (some (fun a => some (f a))) lower upper
      = some ((S.drop (decIdx (S.map f) lower)).take
          (upIdx (S.map f) upper - decIdx (S.map f) lower)) ∧
    (baseIdx (S.map f) lower - 1 ≤ decIdx (S.map f) lower ∧
      decIdx (S.map f) lower ≤ baseIdx (S.map f) lower) ∧
    (∀ k, baseIdx (S.map f) lower ≤ k → k < upIdx (S.map f) upper →
      k < S.length →
      (∀ lb, lower = some lb → lb ≤ f (S.getD k default)) ∧
      (∀ ub, upper = some ub → f (S.getD k default) ≤ ub)) ∧
    (upIdx (S.map f) upper ≤ decIdx (S.map f) lower →
      _bisect_list S (some (fun a => some (f a))) lower upper = some []) := by
  have hmono := sorted_getD_mono hs
  have hlen : (S.map f).length = S.length := by simp
  have hmain := _bisect_list_pure_eq S f lower upper hs
  refine ⟨hmain, ?_, ?_, ?_⟩
  · cases lower with
    | none => simp [baseIdx, decIdx]
    | some lb =>
      dsimp only [baseIdx, decIdx]
      split <;> omega
  · intro k hk1 hk2 hk3
    constructor
    · intro lb hlb
      subst hlb
      rw [← getD_map_int f S hk3]
      dsimp only [baseIdx] at hk1
      by_contra hcon
      push_neg at hcon
      have hkv : k < (S.map f).length := by omega
      have h1 : ¬ (S.map f).getD (linBL (S.map f) lb) 0 < lb :=
        not_lt_getD_linBL (by omega)
      exact h1 (lt_of_le_of_lt (hmono _ k hk1 hkv) hcon)
    · intro ub hub
      subst hub
      rw [← getD_map_int f S hk3]
      dsimp only [upIdx] at hk2
      exact getD_le_of_lt_linBR hk2
  · intro hle
    rw [hmain, Nat.sub_eq_zero_of_le hle]
    simp

/-- Witness for C1 at a concrete instance. -/
theorem C1_witness :
    (([10, 20, 30, 40] : List Int).map (fun v => v)).Sorted
      (fun a b => a ≤ b) ∧
    _bisect_list ([10, 20, 30, 40] : List Int)
      (some (fun a => some ((fun v => v) a))) (some 25) (some 35)
      = some [20, 30] := by
  refine ⟨by decide, ?_⟩
  exact ((C1_bisect_list_range_selection ([10, 20, 30, 40] : List Int)
    (fun v => v) (some 25) (some 35) (by decide)).1).trans (by decide)

/-! ## C6: windows before all timestamps -/

theorem blAux_all_ge (g : Nat → Option Int) (x : Int) :
    ∀ (fuel lo hi : Nat),
      (∀ i, i < hi → ∃ v, g i = some v ∧ ¬ v < x) →
      blAux g x fuel lo hi = some lo := by
  intro fuel
  induction fuel with
  | zero => intro lo hi _; rfl
  | succ fuel ih =>
    intro lo hi h
    by_cases hlt : lo < hi
    · simp only [blAux, if_pos hlt]
      obtain ⟨v, hg, hv⟩ := h ((lo + hi) / 2) (by omega)
      rw [hg]
      dsimp only
      rw [if_neg hv]
      exact ih lo ((lo + hi) / 2) (fun i hi2 => h i (by omega))
    · simp only [blAux, if_neg hlt]

theorem take_drop_zero_full {α : Type} (L : List α) :
    (L.drop 0).take (L.length - 0) = L := by
  simp

theorem _bisect_list_no_bounds {α : Type} [Inhabited α] (L : List α)
    (ext : Option (α → Option Int)) :
    _bisect_list L ext none none = some L := by
  unfold _bisect_list
  cases ext <;> dsimp only <;> rw [take_drop_zero_full]

theorem _bisect_list_lower_only_full {α : Type} [Inhabited α] (L : List α)
    (ext : α → Option Int) (lb : Int)
    (hext : ∀ a, ∃ v, ext a = some v ∧ lb < v) :
    _bisect_list L (some ext) (some lb) none = some L := by
  unfold _bisect_list
  dsimp only
  have hbl : bisectLeftE (fun i => ext (L.getD i default)) lb L.length
      = some 0 := by
    apply blAux_all_ge
    intro i _
    obtain ⟨v, he, hv⟩ := hext (L.getD i default)
    exact ⟨v, he, not_lt.mpr (le_of_lt hv)⟩
  rw [hbl]
  dsimp only [Option.map]
  rw [if_neg (by simp)]
  rw [take_drop_zero_full]

theorem session_wrapper_total (fs : FS) (exts : List String)
    (hls : ∀ p, (fs.ls p).isSome) (p : String) :
    ∃ v, _extract_date_from_session_wrapper fs exts p = some v := by
  unfold _extract_date_from_session_wrapper _get_objects_in_path
  cases h : fs.ls p with
  | none => exact absurd (hls p) (by simp [h])
  | some files =>
    dsimp only
    cases pysort
        ((files.filter (fun e => e.type == "file")).map (fun e => e.name)
          |>.filterMap (fun entry =>
            match rsplitDot entry with
            | none => none
            | some be =>
              if (exts.map pyLower).contains (pyLower be.2) then some entry
              else none)) with
    | nil => exact ⟨0, rfl⟩
    | cons f rest => exact ⟨fs.extract f, rfl⟩

theorem objects_total (fs : FS) (hls : ∀ p, (fs.ls p).isSome)
    (p : String) (tt : Option String) (e : Option (List String)) :
    ∃ L, _get_objects_in_path fs p tt e = some L := by
  unfold _get_objects_in_path
  cases h : fs.ls p with
  | none => exact absurd (hls p) (by simp [h])
  | some files => exact ⟨_, rfl⟩

theorem mapMO_congr {α β : Type} (f g : α → Option β) :
    ∀ (l : List α), (∀ a, a ∈ l → f a = g a) → mapMO f l = mapMO g l := by
  intro l
  induction l with
  | nil => intro _; rfl
  | cons a l ih =>
    intro h
    rw [mapMO_cons, mapMO_cons, h a (by simp),
      ih (fun b hb => h b (by simp [hb]))]

theorem mapMO_total {α β : Type} (f : α → Option β)
    (h : ∀ a, ∃ b, f a = some b) :
    ∀ (l : List α), ∃ r, mapMO f l = some r := by
  intro l
  induction l with
  | nil => exact ⟨[], rfl⟩
  | cons a l ih =>
    obtain ⟨b, hb⟩ := h a
    obtain ⟨r, hr⟩ := ih
    exact ⟨b :: r, by rw [mapMO_cons, hb, hr]; rfl⟩

/-- Specification-side description of "every qualifying file of the device":
list the sessions, list each session's qualifying files, and concatenate in
session order (a missing device root contributes nothing). -/
def specAllDeviceFiles (fs : FS) (extensions : List String)
    (device : String) : Option (List String) :=
  match _get_objects_in_path fs device (some "directory") none with
  | none => some []
  | some sessions => do
    let perSession ← mapMO (fun s =>
      _get_objects_in_path fs s (some "file") (some extensions)) sessions
    pure perSession.flatten

/-- When the session selection and every file-level range selection return
their input unchanged, the per-device loop of `get_log_files` yields exactly
all qualifying files of all sessions of the device. -/
theorem deviceContribution_full (fs : FS) (exts : List String)
    (sd ed : Option Int) (d : String)
    (hls : ∀ p, (fs.ls p).isSome)
    (hsel : ∀ L : List String,
      _bisect_list L (some (_extract_date_from_session_wrapper fs exts)) sd ed
        = some L)
    (hf1 : ∀ L : List String,
      _bisect_list L (some (_extract_date_wrapper fs)) sd ed = some L)
    (hf2 : ∀ L : List String,
      _bisect_list L (some (_extract_date_wrapper fs)) sd none = some L)
    (hf3 : ∀ L : List String,
      _bisect_list L (some (_extract_date_wrapper fs)) none ed = some L) :
    deviceContribution fs exts sd ed d = specAllDeviceFiles fs exts d := by
  unfold deviceContribution specAllDeviceFiles
  obtain ⟨sessions, hsess⟩ := objects_total fs hls d (some "directory") none
  rw [hsess]
  dsimp only
  rw [hsel sessions]
  cases sessions with
  | nil => rfl
  | cons s rest =>
    cases rest with
    | nil =>
      obtain ⟨files, hf⟩ := objects_total fs hls s (some "file") (some exts)
      simp [hf, hf1 files, mapMO_cons, mapMO_nil]
    | cons s2 rest2 =>
      rcases List.eq_nil_or_concat (s2 :: rest2) with habs | ⟨mid, last, hdec⟩
      · exact absurd habs (by simp)
      rw [List.concat_eq_append] at hdec
      have hlen2 : (s :: s2 :: rest2).length ≠ 1 := by simp
      have hlen3 : 1 < (s :: s2 :: rest2).length := by simp
      simp only [Option.bind_eq_bind, Option.some_bind, if_neg hlen2,
        if_pos hlen3, List.headD_cons]
      obtain ⟨firstFiles, hff⟩ := objects_total fs hls s (some "file") (some exts)
      obtain ⟨lastFiles, hlf⟩ := objects_total fs hls last (some "file") (some exts)
      obtain ⟨mids, hmids⟩ := mapMO_total
        (fun s => _get_objects_in_path fs s (some "file") (some exts))
        (fun a => objects_total fs hls a (some "file") (some exts)) mid
      rw [hff]
      simp only [Option.bind_eq_bind, Option.some_bind]
      rw [hf2 firstFiles]
      simp only [Option.pure_def, ite_self, Option.bind_eq_bind,
        Option.some_bind]
      have hdrop : ((s :: s2 :: rest2).drop 1).dropLast = mid := by
        rw [show (s :: s2 :: rest2).drop 1 = s2 :: rest2 from rfl, hdec,
          List.dropLast_concat]
      have hlast : (s :: s2 :: rest2).getLastD "" = last := by
        rw [show (s :: s2 :: rest2) = (s :: mid) ++ [last] by
          rw [List.cons_append, ← hdec]]
        exact List.getLastD_concat _ _ _
      rw [hdrop, hlast, hmids, hlf]
      simp only [Option.bind_eq_bind, Option.some_bind]
      rw [hf3 lastFiles]
      simp only [Option.pure_def, ite_self, Option.bind_eq_bind,
        Option.some_bind]
      rw [mapMO_cons, hdec, mapMO_append, hmids]
      rw [mapMO_cons, mapMO_nil, hlf]
      simp [hff, List.flatten_append, List.flatten_cons, List.append_assoc]

def fs6c : FS where
  ls := fun p =>
    if p = "r/d" then some [⟨"r/d/s", "directory"⟩]
    else if p = "r/d/s" then some [⟨"r/d/s/f.mf4", "file"⟩]
    else some []
  isdir := fun _ => false
  isfile := fun _ => false
  extract := fun _ => 100

/-- C6 counterexample: device `d` has one session with one qualifying file
whose timestamp `100` is strictly after both bounds of the window `[0, 50]`
(the window lies entirely before the first file's timestamp), yet
`get_log_files` returns the empty list: the upper bound empties the session
selection before the lower-bound clamp can matter. -/
theorem C6_counterexample :
    (0 : Int) < 100 ∧ (50 : Int) < 100 ∧
    _get_objects_in_path fs6c "r/d/s" (some "file") (some ["mf4"])
      = some ["r/d/s/f.mf4"] ∧
    fs6c.extract "r/d/s/f.mf4" = 100 ∧
    get_log_files fs6c ["d"] "r" none (some 0) (some 50) = some [] := by
  decide

/-- C6 amended: when only the lower bound is given and every timestamp the
search can extract (session-level and file-level) is strictly after it, the
windowed call coincides with the unwindowed call, which in turn returns
every qualifying file of every session of every device; the lower-bound
index clamps to 0 throughout.  (With an upper bound also before all
timestamps the result is empty instead, per the counterexample.) -/
theorem C6_amended_lower_only_returns_all (fs : FS) (devices : List String)
    (path : String) (fexts : Option (List String)) (lb : Int)
    (hls : ∀ p, (fs.ls p).isSome)
    (hfile : ∀ p, lb < fs.extract p)
    (hsess : ∀ p v,
      _extract_date_from_session_wrapper fs ((fexts.getD ["MF4"]).map pyLower) p
        = some v → lb < v) :
    get_log_files fs devices path fexts (some lb) none
      = get_log_files fs devices path fexts none none ∧
    get_log_files fs devices path fexts none none
      = (mapMO (specAllDeviceFiles fs ((fexts.getD ["MF4"]).map pyLower))
          (devices.map (fun d => path ++ "/" ++ d))).bind
          (fun parts => some (pysort parts.flatten)) := by
  set exts := (fexts.getD ["MF4"]).map pyLower with hexts
  have hcontrib1 : ∀ d, deviceContribution fs exts (some lb) none d
      = specAllDeviceFiles fs exts d := by
    intro d
    apply deviceContribution_full fs exts (some lb) none d hls
    · intro L
      apply _bisect_list_lower_only_full
      intro a
      obtain ⟨v, hv⟩ := session_wrapper_total fs exts hls a
      exact ⟨v, hv, hsess a v hv⟩
    · intro L
      apply _bisect_list_lower_only_full
      intro a
      exact ⟨fs.extract a, rfl, hfile a⟩
    · intro L
      apply _bisect_list_lower_only_full
      intro a
      exact ⟨fs.extract a, rfl, hfile a⟩
    · intro L
      exact _bisect_list_no_bounds L _
  have hcontrib2 : ∀ d, deviceContribution fs exts none none d
      = specAllDeviceFiles fs exts d := by
    intro d
    apply deviceContribution_full fs exts none none d hls <;>
      (intro L; exact _bisect_list_no_bounds L _)
  constructor
  · unfold get_log_files
    dsimp only
    rw [devicesAfterCall_eq_map, ← hexts]
    rw [mapMO_congr _ _ _ (fun a _ => hcontrib1 a),
      mapMO_congr _ _ _ (fun a _ => hcontrib2 a)]
  · unfold get_log_files
    dsimp only
    rw [devicesAfterCall_eq_map, ← hexts]
    rw [mapMO_congr _ _ _ (fun a _ => hcontrib2 a)]
    rfl

def ls6wTable : String → List FSEntry := fun p =>
  if p = "r/d" then [⟨"r/d/s1", "directory"⟩, ⟨"r/d/s2", "directory"⟩]
  else if p = "r/d/s1" then [⟨"r/d/s1/a.mf4", "file"⟩]
  else if p = "r/d/s2" then [⟨"r/d/s2/b.mf4", "file"⟩]
  else []

def fs6w : FS where
  ls := fun p => some (ls6wTable p)
  isdir := fun _ => false
  isfile := fun _ => false
  extract := fun _ => 10

/-- Witness for the amended C6 at a concrete instance. -/
theorem C6_amended_witness :
    get_log_files fs6w ["d"] "r" none (some (-5)) none
      = get_log_files fs6w ["d"] "r" none none none ∧
    get_log_files fs6w ["d"] "r" none none none
      = some ["r/d/s1/a.mf4", "r/d/s2/b.mf4"] := by
  have hsess : ∀ p v,
      _extract_date_from_session_wrapper fs6w
        (((none : Option (List String)).getD ["MF4"]).map pyLower) p
        = some v → (-5 : Int) < v := by
    intro p v h
    unfold _extract_date_from_session_wrapper at h
    cases hL : _get_objects_in_path fs6w p (some "file")
        (some (((((none : Option (List String))).getD ["MF4"]).map pyLower).map
          pyLower)) with
    | none => rw [hL] at h; simp at h
    | some files =>
      rw [hL] at h
      cases files with
      | nil =>
        simp only [Option.some.injEq] at h
        omega
      | cons f rest =>
        simp only [Option.some.injEq] at h
        have hf : fs6w.extract f = 10 := rfl
        omega
  have h := C6_amended_lower_only_returns_all fs6w ["d"] "r" none (-5)
    (fun _ => rfl)
    (fun p => by have hp : fs6w.extract p = 10 := rfl; omega) hsess
  exact ⟨h.1, by decide⟩

/-! ## C2: the multi-session branch of get_log_files -/

theorem get_log_files_single (fs : FS) (dev path : String)
    (fexts : Option (List String)) (sd ed : Option Int) :
    get_log_files fs [dev] path fexts sd ed
      = (deviceContribution fs ((fexts.getD ["MF4"]).map pyLower) sd ed
          (path ++ "/" ++ dev)).bind (fun c => some (pysort c)) := by
  unfold get_log_files
  dsimp only
  rw [devicesAfterCall_eq_map]
  dsimp only [List.map_cons, List.map_nil]
  cases h : deviceContribution fs ((fexts.getD ["MF4"]).map pyLower) sd ed
      (path ++ "/" ++ dev) with
  | none => simp [mapMO, h]
  | some c => simp [mapMO, h, Option.bind_eq_bind, Option.some_bind]

/-- C2: when the session selection returns more than one session, the
per-device search lists the first selected session's files and applies the
range selection with only the lower bound (unless that list has exactly one
file, which is included outright), includes every file of every session
strictly between the boundaries without any further filtering, and lists the
last selected session's files applying the range selection with only the
upper bound (same single-file short-circuit); the merged result is sorted at
the end. -/
theorem C2_multi_session_boundaries (fs : FS) (dev path : String)
    (fexts : Option (List String)) (sd ed : Option Int)
    (sessions selected : List String) (s0 sLast : String) (mid : List String)
    (hsessions : _get_objects_in_path fs (path ++ "/" ++ dev)
      (some "directory") none = some sessions)
    (hsel : _bisect_list sessions
      (some (_extract_date_from_session_wrapper fs
        ((fexts.getD ["MF4"]).map pyLower))) sd ed = some selected)
    (hdec : selected = s0 :: mid ++ [sLast]) :
    get_log_files fs [dev] path fexts sd ed
      = (do
          let exts := (fexts.getD ["MF4"]).map pyLower
          let firstFiles ← _get_objects_in_path fs s0 (some "file") (some exts)
          let firstPart ←
            if firstFiles.length = 1 then some firstFiles
            else (_bisect_list firstFiles (some (_extract_date_wrapper fs))
              sd none)
          let midFiles ← mapMO (fun s =>
            _get_objects_in_path fs s (some "file") (some exts)) mid
          let lastFiles ← _get_objects_in_path fs sLast (some "file")
            (some exts)
          let lastPart ←
            if lastFiles.length = 1 then some lastFiles
            else (_bisect_list lastFiles (some (_extract_date_wrapper fs))
              none ed)
          some (pysort (firstPart ++ midFiles.flatten ++ lastPart))) := by
  rw [get_log_files_single]
  unfold deviceContribution
  rw [hsessions]
  dsimp only
  rw [hsel]
  subst hdec
  have hlen1 : (s0 :: mid ++ [sLast]).length ≠ 1 := by simp
  have hlen2 : 1 < (s0 :: mid ++ [sLast]).length := by simp
  have hdrop : ((s0 :: mid ++ [sLast]).drop 1).dropLast = mid := by
    rw [show (s0 :: mid ++ [sLast]).drop 1 = mid ++ [sLast] from rfl,
      List.dropLast_concat]
  have hlast : (s0 :: mid ++ [sLast]).getLastD "" = sLast := by
    rw [show (s0 :: mid ++ [sLast]) = (s0 :: mid) ++ [sLast] from
      List.cons_append s0 mid [sLast]]
    exact List.getLastD_concat _ _ _
  simp only [Option.bind_eq_bind, Option.some_bind, if_neg hlen1,
    if_pos hlen2, List.headD_cons, hdrop, hlast]
  cases hff : _get_objects_in_path fs s0 (some "file")
      (some ((fexts.getD ["MF4"]).map pyLower)) with
  | none => simp_all [Option.bind_eq_bind, Option.some_bind, Option.pure_def]
  | some firstFiles =>
    by_cases h1 : firstFiles.length = 1
    · cases hmid : mapMO (fun s => _get_objects_in_path fs s (some "file")
          (some ((fexts.getD ["MF4"]).map pyLower))) mid with
      | none => simp_all [Option.bind_eq_bind, Option.some_bind, Option.pure_def]
      | some mids =>
        cases hlf : _get_objects_in_path fs sLast (some "file")
            (some ((fexts.getD ["MF4"]).map pyLower)) with
        | none => simp_all [Option.bind_eq_bind, Option.some_bind, Option.pure_def]
        | some lastFiles =>
          by_cases h2 : lastFiles.length = 1
          · simp_all [Option.bind_eq_bind, Option.some_bind, Option.pure_def]
          · cases hb2 : _bisect_list lastFiles
                (some (_extract_date_wrapper fs)) none ed with
            | none =>
              simp_all [Option.bind_eq_bind, Option.some_bind, Option.pure_def]
            | some lastPart =>
              simp_all [Option.bind_eq_bind, Option.some_bind, Option.pure_def]
    · cases hb1 : _bisect_list firstFiles (some (_extract_date_wrapper fs))
          sd none with
      | none => simp_all [Option.bind_eq_bind, Option.some_bind, Option.pure_def]
      | some firstPart =>
        cases hmid : mapMO (fun s => _get_objects_in_path fs s (some "file")
            (some ((fexts.getD ["MF4"]).map pyLower))) mid with
        | none => simp_all [Option.bind_eq_bind, Option.some_bind, Option.pure_def]
        | some mids =>
          cases hlf : _get_objects_in_path fs sLast (some "file")
              (some ((fexts.getD ["MF4"]).map pyLower)) with
          | none => simp_all [Option.bind_eq_bind, Option.some_bind, Option.pure_def]
          | some lastFiles =>
            by_cases h2 : lastFiles.length = 1
            · simp_all [Option.bind_eq_bind, Option.some_bind, Option.pure_def]
            · cases hb2 : _bisect_list lastFiles
                  (some (_extract_date_wrapper fs)) none ed with
              | none =>
                simp_all [Option.bind_eq_bind, Option.some_bind, Option.pure_def]
              | some lastPart =>
                simp_all [Option.bind_eq_bind, Option.some_bind, Option.pure_def]

def ls2Table : String → List FSEntry := fun p =>
  if p = "r/d" then
    [⟨"r/d/s1", "directory"⟩, ⟨"r/d/s2", "directory"⟩,
      ⟨"r/d/s3", "directory"⟩]
  else if p = "r/d/s1" then
    [⟨"r/d/s1/a1.mf4", "file"⟩, ⟨"r/d/s1/a2.mf4", "file"⟩]
  else if p = "r/d/s2" then [⟨"r/d/s2/b1.mf4", "file"⟩]
  else if p = "r/d/s3" then
    [⟨"r/d/s3/c1.mf4", "file"⟩, ⟨"r/d/s3/c2.mf4", "file"⟩]
  else []

def fs2 : FS where
  ls := fun p => some (ls2Table p)
  isdir := fun _ => false
  isfile := fun _ => false
  extract := fun p =>
    if p = "r/d/s1/a1.mf4" then 10
    else if p = "r/d/s1/a2.mf4" then 20
    else if p = "r/d/s2/b1.mf4" then 30
    else if p = "r/d/s3/c1.mf4" then 40
    else 50

/-- Witness for C2 at a concrete instance. -/
theorem C2_witness :
    get_log_files fs2 ["d"] "r" none (some 15) (some 45)
      = some ["r/d/s1/a1.mf4", "r/d/s1/a2.mf4", "r/d/s2/b1.mf4",
          "r/d/s3/c1.mf4"] := by
  have h := C2_multi_session_boundaries fs2 "d" "r" none (some 15) (some 45)
    ["r/d/s1", "r/d/s2", "r/d/s3"] ["r/d/s1", "r/d/s2", "r/d/s3"]
    "r/d/s1" "r/d/s3" ["r/d/s2"]
    (by decide) (by decide) rfl
  exact h.trans (by decide)

/-! ## C5: merging devices -/

/-- C5: for distinct devices `A` and `B` with identical remaining arguments
(and with per-device results duplicate-free and disjoint, as guaranteed in a
real hierarchical filesystem where listed paths are unique), the two-device
call returns exactly the sorted merge of the two single-device results,
which is sorted and duplicate-free. -/
theorem C5_multi_device_merge (fs : FS) (A B path : String)
    (fexts : Option (List String)) (sd ed : Option Int)
    (rA rB : List String)
    (_hAB : A ≠ B)
    (hA : get_log_files fs [A] path fexts sd ed = some rA)
    (hB : get_log_files fs [B] path fexts sd ed = some rB)
    (hnA : rA.Nodup) (hnB : rB.Nodup)
    (hdisj : ∀ x, x ∈ rA → x ∉ rB) :
    get_log_files fs [A, B] path fexts sd ed = some (pysort (rA ++ rB)) ∧
    (pysort (rA ++ rB)).Sorted (fun a b => strLe a b = true) ∧
    (pysort (rA ++ rB)).Nodup := by
  rw [get_log_files_single] at hA hB
  set exts := (fexts.getD ["MF4"]).map pyLower with hexts
  obtain ⟨cA, hcA, hrA⟩ : ∃ cA,
      deviceContribution fs exts sd ed (path ++ "/" ++ A) = some cA ∧
      pysort cA = rA := by
    cases hc : deviceContribution fs exts sd ed (path ++ "/" ++ A) with
    | none => rw [hc] at hA; simp at hA
    | some c =>
      rw [hc] at hA
      simp only [Option.some_bind, Option.some.injEq] at hA
      exact ⟨c, rfl, hA⟩
  obtain ⟨cB, hcB, hrB⟩ : ∃ cB,
      deviceContribution fs exts sd ed (path ++ "/" ++ B) = some cB ∧
      pysort cB = rB := by
    cases hc : deviceContribution fs exts sd ed (path ++ "/" ++ B) with
    | none => rw [hc] at hB; simp at hB
    | some c =>
      rw [hc] at hB
      simp only [Option.some_bind, Option.some.injEq] at hB
      exact ⟨c, rfl, hB⟩
  have hperm : (cA ++ cB).Perm (rA ++ rB) := by
    refine List.Perm.append ?_ ?_
    · rw [← hrA]; exact (pysort_perm cA).symm
    · rw [← hrB]; exact (pysort_perm cB).symm
  have hmerge : pysort (cA ++ cB) = pysort (rA ++ rB) := pysort_eq_of_perm hperm
  refine ⟨?_, pysort_sorted _, ?_⟩
  · unfold get_log_files
    dsimp only
    rw [devicesAfterCall_eq_map]
    dsimp only [List.map_cons, List.map_nil]
    rw [← hexts, mapMO_cons, hcA, Option.some_bind, mapMO_cons, hcB,
      Option.some_bind, mapMO_nil, Option.some_bind, Option.some_bind]
    simp only [Option.pure_def, Option.bind_eq_bind, Option.some_bind,
      List.flatten_cons, List.flatten_nil, List.append_nil]
    rw [hmerge]
  · rw [(pysort_perm (rA ++ rB)).nodup_iff]
    exact List.nodup_append.mpr ⟨hnA, hnB, fun a ha hb => hdisj a ha hb⟩

def ls5Table : String → List FSEntry := fun p =>
  if p = "r/d1" then [⟨"r/d1/s1", "directory"⟩]
  else if p = "r/d1/s1" then [⟨"r/d1/s1/a.mf4", "file"⟩]
  else if p = "r/d2" then [⟨"r/d2/s1", "directory"⟩]
  else if p = "r/d2/s1" then [⟨"r/d2/s1/b.mf4", "file"⟩]
  else []

def fs5 : FS where
  ls := fun p => some (ls5Table p)
  isdir := fun _ => false
  isfile := fun _ => false
  extract := fun p => if p = "r/d1/s1/a.mf4" then 1 else 2

/-- Witness for C5 at a concrete instance. -/
theorem C5_witness :
    get_log_files fs5 ["d1", "d2"] "r" none none none
      = some (pysort (["r/d1/s1/a.mf4"] ++ ["r/d2/s1/b.mf4"])) := by
  exact (C5_multi_device_merge fs5 "d1" "d2" "r" none none none
    ["r/d1/s1/a.mf4"] ["r/d2/s1/b.mf4"] (by decide) (by decide) (by decide)
    (by decide) (by decide) (by decide)).1

end CanedgeBrowser
